import Mathlib

/-!
Shallow embedding of `src/punycode.js` (a Punycode / RFC 3492 Bootstring
codec for JavaScript) and proofs about it.

Modelling conventions:

* A JavaScript string is modelled as its sequence of 16-bit code units,
  `List ℕ`.  `String.prototype.charCodeAt` is then list indexing,
  `String.fromCharCode` truncates each value mod 2^16, and
  `String.fromCodePoint` splits values ≥ 0x10000 into surrogate pairs and
  raises a `RangeError` for values above 0x10FFFF, as in JS.
* JavaScript number arithmetic on the integer values arising here is exact:
  every operation the source performs on integral operands below 2^53 is
  exact in IEEE-754 doubles, and a truncation `~~(a / b)` of a quotient of
  such integers equals exact rational truncation (the rounding error of the
  correctly-rounded division is too small to cross an integer boundary for
  operands below 2^53).  Integer values are therefore modelled as `ℕ`/`ℤ`
  and `~~(a / b)` as truncating integer division `Int.tdiv`.
* The one place a genuinely fractional value flows on, `delta / DAMP` in
  `adapt` (the source applies no `~~` there), is modelled exactly as the
  rational `a / b` represented by its numerator `a` over the fixed
  denominator `b = DAMP`; every later comparison and truncation of that
  value is expressed exactly in integer arithmetic over that representation.
* `delta >> 1` is JS `ToInt32` followed by an arithmetic shift, i.e. floor
  division by 2 of the wrapped 32-bit value (`toInt32`, `Int.fdiv`).
* The source's condition-less `for (;;)` loops are modelled with an explicit
  fuel parameter; exhausting the fuel yields the distinguished result
  `Err.nonTermination`.  The chosen fuels are sufficient for every
  terminating run of the source: the digit loops and the adapt loop can
  never exhaust theirs at all (`encodeDigits_fuel`, `adaptLoop_fuel`), and
  `decode`/`unicode` can never return the marker (`decodeU_ne_fuel`,
  `unicodeU_ne_fuel`), so a `nonTermination` result reflects genuine
  divergence of the JavaScript code — `encode`'s outer loop really can
  diverge (`encode_nontermination_bug`, proved for every amount of fuel).
* Thrown exceptions are modelled with `Except`: `TypeError` cannot arise
  (inputs are already unit lists), `'invalid input'` is
  `Err.malformedInput`, `'overflow detected'` is `Err.overflow`,
  `'high surrogate not followed by low surrogate'` is
  `Err.unpairedSurrogate`.
-/

/-- Error taxonomy of the codec (plus the fuel marker `nonTermination` and
the `RangeError` that `String.fromCodePoint` can raise). -/
inductive Err where
  | malformedInput
  | unpairedSurrogate
  | overflow
  | rangeError
  | nonTermination
deriving DecidableEq

deriving instance DecidableEq for Except

/-- Highest positive signed 32-bit value, `0x7FFFFFFF`, the overflow bound. -/
def MAX_INTEGER : ℕ := 2147483647

/-- Bootstring parameter `base = 36`. -/
def BASE : ℕ := 36

/-- Bootstring parameter `tmin = 1`. -/
def TMIN : ℕ := 1

/-- Bootstring parameter `tmax = 26`. -/
def TMAX : ℕ := 26

/-- Bootstring parameter `skew = 38`. -/
def SKEW : ℕ := 38

/-- Bootstring parameter `damp = 700`. -/
def DAMP : ℕ := 700

/-- Bootstring parameter `initial_bias = 72`. -/
def INITIAL_BIAS : ℕ := 72

/-- Bootstring parameter `initial_n = 128`. -/
def INITIAL_N : ℕ := 128

/-- The delimiter `'-'` as a char code. -/
def DELIMITER_CODE : ℕ := 0x2D

/-- JS `ToInt32`: reduce mod 2^32 into the signed range [-2^31, 2^31). -/
def toInt32 (n : ℕ) : ℤ :=
  if n % 4294967296 < 2147483648 then ((n % 4294967296 : ℕ) : ℤ)
  else ((n % 4294967296 : ℕ) : ℤ) - 4294967296

/-- The constant `x = ~~(((BASE - TMIN) * TMAX) >> 1) = 455` of `adapt`. -/
def ADAPT_X : ℕ := ((BASE - TMIN) * TMAX) / 2

/-- The `for (; delta > x; k += BASE) delta = ~~(delta / (BASE - TMIN))`
loop of `adapt`, after its value has become a true integer (which happens at
the first truncating division).  `delta` strictly decreases on every
iteration, so fuel `= delta` is always sufficient. -/
def adaptLoop : ℕ → ℕ → ℕ → ℕ × ℕ :=
  Nat.rec (motive := fun _ => ℕ → ℕ → ℕ × ℕ)
    (fun delta k => (delta, k))
    (fun _ ih delta k =>
      if ADAPT_X < delta then ih (delta / (BASE - TMIN)) (k + BASE)
      else (delta, k))

/-- The bias adaptation function exactly as the source computes it.

The source reads
`delta = firstTime ? delta / DAMP : delta >> 1` with **no** truncation on
the `delta / DAMP` float division.  The running value is therefore the
exact rational `a / b` with `b = DAMP` when `firstTime` and `b = 1`
otherwise; `delta > x` is `a > x * b`, `~~(v / d)` is `Int.tdiv a (b * d)`,
and the final `~~(((BASE - TMIN + 1) * v) / (v + SKEW))` is
`Int.tdiv ((BASE - TMIN + 1) * a) (a + SKEW * b)`.  Once the while loop
runs, its first truncation makes the value integral and `adaptLoop`
continues over `ℕ`. -/
def adapt (delta numPoints : ℕ) (firstTime : Bool) : ℤ :=
  let a : ℤ := if firstTime then (delta : ℤ) else Int.fdiv (toInt32 delta) 2
  let b : ℤ := if firstTime then (DAMP : ℤ) else 1
  let a := a + b * Int.tdiv a (b * numPoints)
  if (ADAPT_X : ℤ) * b < a then
    let first := (Int.tdiv a ((BASE - TMIN : ℕ) * b)).toNat
    let p := adaptLoop first first BASE
    (p.2 : ℤ) + (((BASE - TMIN + 1) * p.1) / (p.1 + SKEW) : ℕ)
  else
    Int.tdiv ((BASE - TMIN + 1) * a) (a + (SKEW : ℤ) * b)

/-- The bias adaptation function as the specification states it (RFC 3492
§6.1): every step, including `delta / damp`, is exact-integer division
truncating toward zero. -/
def adaptRFC (delta numPoints : ℕ) (firstTime : Bool) : ℕ :=
  let d0 := if firstTime then delta / DAMP else delta / 2
  let d1 := d0 + d0 / numPoints
  let p := adaptLoop d1 d1 0
  p.2 + ((BASE - TMIN + 1) * p.1) / (p.1 + SKEW)

/-- `ucs2.decode`: 16-bit units to code points.  A unit in the high
surrogate range consumes the following unit, whatever it is; if no unit
follows, the error is raised.  A directly-reached unit in the low surrogate
range is silently skipped.  The source combines via
`((hi - 0xD800) * 0x400) + (low - 0xDC00) + 0x10000`, where `low - 0xDC00`
may be negative in JS; the total is always ≥ 0x2400, so the subtraction is
performed last here to stay exact over `ℕ`. -/
def ucs2Decode : List ℕ → Except Err (List ℕ)
  | [] => .ok []
  | code :: rest =>
    if 0xD800 ≤ code ∧ code ≤ 0xDBFF then
      match rest with
      | [] => .error .unpairedSurrogate
      | low :: rest2 =>
        (ucs2Decode rest2).map fun out =>
          ((code - 0xD800) * 0x400 + low + 0x10000 - 0xDC00) :: out
    else if 0xDC00 ≤ code ∧ code ≤ 0xDFFF then
      ucs2Decode rest
    else
      (ucs2Decode rest).map fun out => code :: out

/-- JS `String.fromCodePoint`: code points to 16-bit units, splitting
values ≥ 0x10000 into surrogate pairs and raising `RangeError` above
0x10FFFF. -/
def fromCodePoint : List ℕ → Except Err (List ℕ)
  | [] => .ok []
  | cp :: rest =>
    if 0x10FFFF < cp then .error .rangeError
    else
      (fromCodePoint rest).map fun out =>
        if cp < 0x10000 then cp :: out
        else (0xD800 + (cp - 0x10000) / 0x400) :: (0xDC00 + (cp - 0x10000) % 0x400) :: out

/-- JS `String.fromCharCode`: each value truncated to a 16-bit unit. -/
def fromCharCodes (l : List ℕ) : List ℕ := l.map (· % 0x10000)

/-- The digit-value mapping of `decode`: three successive conditional
subtractions, `0-9 → 26-35`, `A-Z → 0-25`, `a-z → 0-25`; anything else is
left ≥ BASE and rejected by the caller. -/
def decodeDigitVal (code : ℕ) : ℕ :=
  let d1 := if 0x30 ≤ code ∧ code ≤ 0x39 then code - 0x16 else code
  let d2 := if 0x41 ≤ d1 ∧ d1 ≤ 0x5A then d1 - 0x41 else d1
  if 0x61 ≤ d2 ∧ d2 ≤ 0x7A then d2 - 0x61 else d2

/-- The threshold `t = k <= bias + TMIN ? TMIN : (k >= bias + TMAX ? TMAX :
k - bias)`, shared by the decode and encode digit loops; always in
`[TMIN, TMAX]`. -/
def threshold (k : ℕ) (bias : ℤ) : ℤ :=
  if (k : ℤ) ≤ bias + (TMIN : ℤ) then (TMIN : ℤ)
  else if bias + (TMAX : ℤ) ≤ (k : ℤ) then (TMAX : ℤ)
  else (k : ℤ) - bias

/-- The inner digit loop of `decode`: reads digits of one generalized
integer from the remaining input.  Returns the accumulated `i` and the
remaining units.  Running out of input is `'invalid input'`
(`malformedInput`). -/
def decodeInner : List ℕ → ℕ → ℕ → ℕ → ℤ → Except Err (ℕ × List ℕ)
  | [], _, _, _, _ => .error .malformedInput
  | code :: rest, i, w, k, bias =>
    let digit := decodeDigitVal code
    if BASE ≤ digit ∨ Int.tdiv ((MAX_INTEGER : ℤ) - (i : ℤ)) (w : ℤ) < (digit : ℤ) then
      .error .overflow
    else
      let i2 := i + digit * w
      let t := threshold k bias
      if (digit : ℤ) < t then .ok (i2, rest)
      else
        let x := ((BASE : ℤ) - t).toNat
        if MAX_INTEGER / x < w then .error .overflow
        else decodeInner rest i2 (w * x) (k + BASE) bias

/-- `output.splice(i, 0, n)`: insert `n` at index `i` (appending when `i`
is past the end, as JS `splice` clamps). -/
def spliceIns : ℕ → ℕ → List ℕ → List ℕ
  | 0, n, l => n :: l
  | _ + 1, n, [] => [n]
  | i + 1, n, c :: l => c :: spliceIns i n l

/-- The outer loop of `decode`.  Each iteration reads one generalized
integer (consuming at least one unit), adapts the bias, advances `n`, and
splices `n` into the output.  One unit is consumed per inner step, so fuel
`= |rest|` is always sufficient: `nonTermination` is unreachable. -/
def decodeOuter : ℕ → List ℕ → ℕ → ℕ → ℤ → List ℕ → Except Err (List ℕ) :=
  Nat.rec (motive := fun _ => List ℕ → ℕ → ℕ → ℤ → List ℕ → Except Err (List ℕ))
    (fun rest _ _ _ output =>
      match rest with
      | [] => .ok output
      | _ :: _ => .error .nonTermination)
    (fun _ ih rest i n bias output =>
      match rest with
      | [] => .ok output
      | c :: cs =>
        match decodeInner (c :: cs) i 1 BASE bias with
        | .error e => .error e
        | .ok (i2, rest2) =>
          let out := output.length + 1
          let bias2 := adapt (i2 - i) out (i == 0)
          if (MAX_INTEGER : ℤ) - (n : ℤ) < ((i2 / out : ℕ) : ℤ) then .error .overflow
          else
            let n2 := n + i2 / out
            let i3 := i2 % out
            ih rest2 (i3 + 1) n2 bias2 (spliceIns i3 n2 output))

/-- `input.lastIndexOf('-') + 1` (0 when there is no delimiter). -/
def lastDelimEnd : List ℕ → ℕ
  | [] => 0
  | c :: rest =>
    let r := lastDelimEnd rest
    if r = 0 then (if c = DELIMITER_CODE then 1 else 0) else r + 1

/-- `punycode.decode`: Punycode ASCII units to Unicode units. -/
def decodeU (input : List ℕ) : Except Err (List ℕ) :=
  if input = [] then .ok []
  else
    let basic := lastDelimEnd input
    let output := if basic ≠ 0 then input.take (basic - 1) else []
    let rest := input.drop basic
    match decodeOuter rest.length rest 0 INITIAL_N (INITIAL_BIAS : ℤ) output with
    | .error e => .error e
    | .ok out => fromCodePoint out

/-- Digit to char code: `d + (d < 0x1A ? 0x61 : 0x16)`. -/
def encodeDigitChar (d : ℕ) : ℕ := d + (if d < 0x1A then 0x61 else 0x16)

/-- The digit-emission loop of `encode`: the generalized variable-length
integer for `q` under the current bias.  `q` strictly decreases at every
non-terminal digit, so fuel `= q + 1` is always sufficient. -/
def encodeDigits : ℕ → ℕ → ℕ → ℤ → Except Err (List ℕ) :=
  Nat.rec (motive := fun _ => ℕ → ℕ → ℤ → Except Err (List ℕ))
    (fun _ _ _ => .error .nonTermination)
    (fun _ ih k q bias =>
      let t := threshold k bias
      if (q : ℤ) < t then .ok [encodeDigitChar q]
      else
        let tn := t.toNat
        let d := tn + (q - tn) % (BASE - tn)
        (ih (k + BASE) ((q - tn) / (BASE - tn)) bias).map
          fun ds => encodeDigitChar d :: ds)

/-- `m`: the smallest code point in `nonBasic` that is ≥ `n`
(`0x110000` when none is), computed by the source's left-to-right fold. -/
def minCodeAtLeast (n : ℕ) (nonBasic : List ℕ) : ℕ :=
  nonBasic.foldl (fun m code => if n ≤ code ∧ code < m then code else m) 0x110000

/-- The `input.forEach` scan of `encode`'s outer loop: counts code points
below `n` into `delta` and, at each occurrence of `n`, emits the digits for
`delta`, adapts the bias, resets `delta` and bumps `h`. -/
def encodeScan : List ℕ → ℕ → ℤ → ℕ → ℕ → ℕ → List ℕ → Except Err (ℕ × ℤ × ℕ × List ℕ)
  | [], delta, bias, h, _, _, output => .ok (delta, bias, h, output)
  | c :: cs, delta, bias, h, n, basic, output =>
    let delta2 := if c < n then delta + 1 else delta
    if c = n then
      match encodeDigits (delta2 + 1) BASE delta2 bias with
      | .error e => .error e
      | .ok ds =>
        let bias2 := adapt delta2 (h + 1) (h == basic)
        encodeScan cs 0 bias2 (h + 1) n basic (output ++ ds)
    else
      encodeScan cs delta2 bias h n basic output

/-- The outer loop of `encode`.  `delta += (m - n) * (h + 1)` is exact over
`ℕ` because `m ≥ n` in every reachable state (every non-basic code point
below `n` has already been handled whenever `h < length`); the source
performs no overflow check here.  The trailing `++delta, ++n` of the
source's `for` update is the `delta3 + 1` / `m + 1` of the recursive
call. -/
def encodeOuter : ℕ → List ℕ → List ℕ → ℕ → ℕ → ℤ → ℕ → ℕ → List ℕ →
    Except Err (List ℕ) :=
  Nat.rec
    (motive := fun _ =>
      List ℕ → List ℕ → ℕ → ℕ → ℤ → ℕ → ℕ → List ℕ → Except Err (List ℕ))
    (fun input _ _ _ _ h _ output =>
      if input.length ≤ h then .ok output else .error .nonTermination)
    (fun _ ih input nonBasic delta n bias h basic output =>
      if input.length ≤ h then .ok output
      else
        let m := minCodeAtLeast n nonBasic
        let delta2 := delta + (m - n) * (h + 1)
        match encodeScan input delta2 bias h m basic output with
        | .error e => .error e
        | .ok (delta3, bias3, h3, output3) =>
          ih input nonBasic (delta3 + 1) (m + 1) bias3 h3 basic output3)

/-- `punycode.encode`: Unicode units to Punycode ASCII units. -/
def encodeU (inputUnits : List ℕ) : Except Err (List ℕ) :=
  if inputUnits = [] then .ok []
  else
    match ucs2Decode inputUnits with
    | .error e => .error e
    | .ok input =>
      let basicList := input.filter fun code => code < 0x80
      let nonBasic := input.filter fun code => 0x80 ≤ code
      let basic := basicList.length
      let output := if 0 < basic then basicList ++ [DELIMITER_CODE] else basicList
      match encodeOuter input.length input nonBasic 0 INITIAL_N (INITIAL_BIAS : ℤ) basic basic output with
      | .error e => .error e
      | .ok out => .ok (fromCharCodes out)

/-- JS `String.prototype.toLowerCase`, restricted to the ASCII letters the
wrapper applies it to. -/
def toLowerAscii (l : List ℕ) : List ℕ :=
  l.map fun c => if 0x41 ≤ c ∧ c ≤ 0x5A then c + 0x20 else c

/-- `input.split('.')` on unit lists (JS semantics: `split` of the empty
string is `[""]`, consecutive dots yield empty parts). -/
def splitDots : List ℕ → List (List ℕ)
  | [] => [[]]
  | c :: rest =>
    if c = 0x2E then [] :: splitDots rest
    else
      match splitDots rest with
      | [] => [[c]]
      | p :: ps => (c :: p) :: ps

/-- `parts.join('.')` on unit lists. -/
def joinDots : List (List ℕ) → List ℕ
  | [] => []
  | [p] => p
  | p :: ps => p ++ 0x2E :: joinDots ps

/-- `parts.map(f)` where `f` may throw: the first error propagates. -/
def mapExcept (f : List ℕ → Except Err (List ℕ)) :
    List (List ℕ) → Except Err (List (List ℕ))
  | [] => .ok []
  | p :: ps =>
    match f p with
    | .error e => .error e
    | .ok y =>
      match mapExcept f ps with
      | .error e => .error e
      | .ok ys => .ok (y :: ys)

/-- The shared shape of `unicode` and `ascii`: empty-string guard, split on
`'.'`, map the per-label function, re-join. -/
def processLabels (f : List ℕ → Except Err (List ℕ)) (input : List ℕ) :
    Except Err (List ℕ) :=
  if input = [] then .ok []
  else
    match mapExcept f (splitDots input) with
    | .error e => .error e
    | .ok ys => .ok (joinDots ys)

/-- Per-label step of `unicode`: the case-sensitive regex test for the
literal prefix `xn--` selects Bootstring decoding of the lowercased
remainder. -/
def unicodeLabel (label : List ℕ) : Except Err (List ℕ) :=
  if label.take 4 = [0x78, 0x6E, 0x2D, 0x2D] then
    decodeU (toLowerAscii (label.drop 4))
  else .ok label

/-- Per-label step of `ascii`: `/[^\0-\x7E]/g.test(domain)` (any unit above
0x7E) selects `"xn--" + encode(label)`. -/
def asciiLabel (label : List ℕ) : Except Err (List ℕ) :=
  if label.any fun c => 0x7E < c then
    match encodeU label with
    | .error e => .error e
    | .ok y => .ok ([0x78, 0x6E, 0x2D, 0x2D] ++ y)
  else .ok label

/-- `punycode.unicode`: decode the Punycoded labels of a domain string. -/
def unicodeU : List ℕ → Except Err (List ℕ) := processLabels unicodeLabel

/-- `punycode.ascii`: ACE-encode the non-ASCII labels of a domain string. -/
def asciiU : List ℕ → Except Err (List ℕ) := processLabels asciiLabel

/-- Unit list of a Lean string literal (all literals used here are BMP, so
code points coincide with UTF-16 units). -/
def unitsOf (s : String) : List ℕ := s.data.map Char.toNat

/-! ### Helper lemmas: `Except.map` and unfolding equations for the
`Nat.rec`-defined loops -/

theorem exceptMapMap (x : Except Err (List ℕ)) (f g : List ℕ → List ℕ) :
    (x.map f).map g = x.map fun o => g (f o) := by
  cases x <;> rfl

theorem exceptMapCongr (x : Except Err (List ℕ)) (f g : List ℕ → List ℕ)
    (h : ∀ o, f o = g o) : x.map f = x.map g := by
  cases x <;> simp [Except.map, h]

theorem decodeOuter_nil (fuel i n : ℕ) (bias : ℤ) (output : List ℕ) :
    decodeOuter fuel [] i n bias output = .ok output := by
  cases fuel <;> rfl

theorem decodeOuter_cons (fuel c : ℕ) (cs : List ℕ) (i n : ℕ) (bias : ℤ)
    (output : List ℕ) :
    decodeOuter (fuel + 1) (c :: cs) i n bias output =
      match decodeInner (c :: cs) i 1 BASE bias with
      | .error e => .error e
      | .ok (i2, rest2) =>
        let out := output.length + 1
        let bias2 := adapt (i2 - i) out (i == 0)
        if (MAX_INTEGER : ℤ) - (n : ℤ) < ((i2 / out : ℕ) : ℤ) then .error .overflow
        else
          decodeOuter fuel rest2 (i2 % out + 1) (n + i2 / out) bias2
            (spliceIns (i2 % out) (n + i2 / out) output) := rfl

theorem encodeOuter_zero (input nonBasic : List ℕ) (delta n : ℕ) (bias : ℤ)
    (h basic : ℕ) (output : List ℕ) :
    encodeOuter 0 input nonBasic delta n bias h basic output =
      if input.length ≤ h then .ok output else .error .nonTermination := rfl

theorem encodeOuter_succ (fuel : ℕ) (input nonBasic : List ℕ) (delta n : ℕ)
    (bias : ℤ) (h basic : ℕ) (output : List ℕ) :
    encodeOuter (fuel + 1) input nonBasic delta n bias h basic output =
      if input.length ≤ h then .ok output
      else
        match encodeScan input (delta + (minCodeAtLeast n nonBasic - n) * (h + 1)) bias
            h (minCodeAtLeast n nonBasic) basic output with
        | .error e => .error e
        | .ok (delta3, bias3, h3, output3) =>
          encodeOuter fuel input nonBasic (delta3 + 1) (minCodeAtLeast n nonBasic + 1)
            bias3 h3 basic output3 := rfl

theorem encodeOuter_done (fuel : ℕ) (input nonBasic : List ℕ) (delta n : ℕ)
    (bias : ℤ) (h basic : ℕ) (output : List ℕ) (hh : input.length ≤ h) :
    encodeOuter fuel input nonBasic delta n bias h basic output = .ok output := by
  cases fuel with
  | zero => rw [encodeOuter_zero, if_pos hh]
  | succ f => rw [encodeOuter_succ, if_pos hh]

theorem encodeDigits_succ (fuel k q : ℕ) (bias : ℤ) :
    encodeDigits (fuel + 1) k q bias =
      if (q : ℤ) < threshold k bias then .ok [encodeDigitChar q]
      else
        (encodeDigits fuel (k + BASE)
            ((q - (threshold k bias).toNat) / (BASE - (threshold k bias).toNat)) bias).map
          fun ds =>
            encodeDigitChar ((threshold k bias).toNat +
              (q - (threshold k bias).toNat) % (BASE - (threshold k bias).toNat)) :: ds := rfl

/-! ### Claim theorems -/

/-- Claim C2 (code_bug): the claim states that `adapt` computes its first
step with integer division truncating toward zero and therefore agrees with
the RFC 3492 exact-integer reference.  The source omits the truncation on
`delta / DAMP` (a float division in JS), and the fractional part changes
the result: at `delta = 1330`, `numPoints = 2`, `firstTime`, the source
computes bias 1 while the RFC reference computes bias 0. -/
theorem adapt_vs_rfc_divergence : adapt 1330 2 true = 1 ∧ adaptRFC 1330 2 true = 0 :=
  ⟨by decide, by decide⟩

/-- Claim C3, counterexample: a high surrogate followed by a unit outside
the low-surrogate range does **not** raise `UnpairedSurrogate` as the claim
asserts; the converter combines the two units anyway
(`(0xD800 - 0xD800) * 0x400 + (0x41 - 0xDC00) + 0x10000 = 0x2441`). -/
theorem ucs2_high_nonlow_no_error : ucs2Decode [0xD800, 0x0041] = .ok [0x2441] := by
  decide

/-- Claim C3, amended: the code-point conversion fails with
`UnpairedSurrogate` only when a high-surrogate unit is the final unit; a
high surrogate followed by **any** unit `d` consumes it and pushes
`(c - 0xD800) * 0x400 + (d - 0xDC00) + 0x10000`, whether or not `d` is a
low surrogate. -/
theorem ucs2_surrogate_handling :
    (∀ c d : ℕ, ∀ rest : List ℕ, 0xD800 ≤ c → c ≤ 0xDBFF →
      ucs2Decode (c :: d :: rest) =
        (ucs2Decode rest).map fun out =>
          ((c - 0xD800) * 0x400 + d + 0x10000 - 0xDC00) :: out)
    ∧ (∀ c : ℕ, 0xD800 ≤ c → c ≤ 0xDBFF →
        ucs2Decode [c] = .error .unpairedSurrogate) := by
  constructor
  · intro c d rest h1 h2
    simp only [ucs2Decode]
    rw [if_pos ⟨h1, h2⟩]
  · intro c h1 h2
    simp only [ucs2Decode]
    rw [if_pos ⟨h1, h2⟩]

/-- Witness for `ucs2_surrogate_handling` at concrete inputs. -/
theorem ucs2_surrogate_handling_witness :
    ucs2Decode [0xD801, 0x0041, 0x62] = .ok [0x2841, 0x62]
    ∧ ucs2Decode [0xDBFF] = .error .unpairedSurrogate := by
  constructor
  · rw [ucs2_surrogate_handling.1 0xD801 0x0041 [0x62] (by decide) (by decide)]
    decide
  · exact ucs2_surrogate_handling.2 0xDBFF (by decide) (by decide)

/-- Claim C5, counterexample: `decode("a-")` does **not** fail with
`MalformedInput` as the claim asserts; the delimiter is the last unit, so
the outer loop never runs and the basic prefix `"a"` is returned. -/
theorem decode_trailing_delimiter_ok : decodeU (unitsOf "a-") = .ok (unitsOf "a") := by
  decide

/-- Claim C5, amended: the digit stream ending before a terminal digit
raises `MalformedInput` only once the outer loop has started reading a
generalized integer — exhausting the remaining input inside the digit loop
always raises it (first conjunct), e.g. on `"a-b"` (second conjunct) —
whereas an empty digit stream, as in `"a-"`, returns the basic prefix. -/
theorem decode_digit_exhaustion :
    (∀ (i w k : ℕ) (bias : ℤ), decodeInner [] i w k bias = .error .malformedInput)
    ∧ decodeU (unitsOf "a-b") = .error .malformedInput :=
  ⟨fun _ _ _ _ => rfl, by decide⟩

/-- Claim C8: the known vector — `encode("mañana") = "maana-pta"` and
`decode("maana-pta") = "mañana"`. -/
theorem known_vector_manana :
    encodeU (unitsOf "mañana") = .ok (unitsOf "maana-pta")
    ∧ decodeU (unitsOf "maana-pta") = .ok (unitsOf "mañana") :=
  ⟨by decide, by decide⟩

/-- Auxiliary: the `m`-scan over the single combined code point `0x110001`
always yields the default `0x110000`, because `0x110001 < 0x110000` fails
for every `n`. -/
theorem minCodeAtLeast_st (n : ℕ) : minCodeAtLeast n [0x110001] = 0x110000 := by
  simp [minCodeAtLeast]

/-- Claim C9 (code_bug): the claim says every operation terminates on every
input.  The unchecked surrogate combination can produce the code point
`0x110001 > 0x10FFFF` (for the units `0xDBFF, 0xE001`), which is never
selected as `m` (that requires `m < 0x110000`) and never equals the scan's
`n`, so `h` never increases and the outer `while h < length` loop of
`encode` spins forever: the first conjunct shows the loop fails to finish
for **every** amount of fuel, and the second evaluates `encode` on those
units to the fuel-exhaustion marker. -/
theorem encode_nontermination_bug :
    (∀ (fuel delta n : ℕ) (bias : ℤ),
      encodeOuter fuel [0x110001] [0x110001] delta n bias 0 0 [] =
        .error .nonTermination)
    ∧ encodeU [0xDBFF, 0xE001] = .error .nonTermination := by
  constructor
  · intro fuel
    induction fuel with
    | zero => intro delta n bias; rfl
    | succ f ih =>
      intro delta n bias
      rw [encodeOuter_succ, if_neg (by simp), minCodeAtLeast_st]
      have hscan : encodeScan [0x110001] (delta + (0x110000 - n) * 1) bias 0 0x110000 0 [] =
          .ok (delta + (0x110000 - n) * 1, bias, 0, []) := by
        simp [encodeScan]
      rw [hscan]
      exact ih _ _ _
  · decide

/-! ### Split / join machinery for the label wrapper -/

theorem splitDots_ne_nil (l : List ℕ) : splitDots l ≠ [] := by
  cases l with
  | nil => simp [splitDots]
  | cons c rest =>
    simp only [splitDots]
    by_cases hc : c = 0x2E
    · simp [hc]
    · rw [if_neg hc]
      cases h : splitDots rest <;> simp

theorem splitDots_no_dot (l : List ℕ) (h : 0x2E ∉ l) : splitDots l = [l] := by
  induction l with
  | nil => rfl
  | cons c rest ih =>
    have hc : c ≠ 0x2E := fun hc => h (by simp [hc])
    have hrest : 0x2E ∉ rest := fun hm => h (by simp [hm])
    simp only [splitDots]
    rw [if_neg hc, ih hrest]

theorem joinDots_splitDots (l : List ℕ) : joinDots (splitDots l) = l := by
  induction l with
  | nil => rfl
  | cons c rest ih =>
    simp only [splitDots]
    by_cases hc : c = 0x2E
    · rw [if_pos hc]
      obtain ⟨p, ps, hps⟩ : ∃ p ps, splitDots rest = p :: ps := by
        cases h : splitDots rest with
        | nil => exact absurd h (splitDots_ne_nil rest)
        | cons p ps => exact ⟨p, ps, rfl⟩
      rw [hps] at ih ⊢
      show 0x2E :: joinDots (p :: ps) = c :: rest
      rw [ih, hc]
    · rw [if_neg hc]
      obtain ⟨p, ps, hps⟩ : ∃ p ps, splitDots rest = p :: ps := by
        cases h : splitDots rest with
        | nil => exact absurd h (splitDots_ne_nil rest)
        | cons p ps => exact ⟨p, ps, rfl⟩
      rw [hps] at ih ⊢
      cases ps with
      | nil => show c :: p = c :: rest; rw [show joinDots [p] = p from rfl] at ih; rw [ih]
      | cons q qs =>
        show (c :: p) ++ 0x2E :: joinDots (q :: qs) = c :: rest
        have : p ++ 0x2E :: joinDots (q :: qs) = rest := ih
        simp only [List.cons_append, this]

theorem mem_of_mem_splitDots {c : ℕ} {p l : List ℕ} (hp : p ∈ splitDots l)
    (hc : c ∈ p) : c ∈ l := by
  induction l generalizing p with
  | nil =>
    simp [splitDots] at hp
    subst hp
    exact absurd hc (List.not_mem_nil c)
  | cons a rest ih =>
    simp only [splitDots] at hp
    by_cases ha : a = 0x2E
    · rw [if_pos ha] at hp
      rcases List.mem_cons.1 hp with h | h
      · subst h; exact absurd hc (List.not_mem_nil c)
      · exact List.mem_cons_of_mem a (ih h hc)
    · rw [if_neg ha] at hp
      cases hsp : splitDots rest with
      | nil => exact absurd hsp (splitDots_ne_nil rest)
      | cons q qs =>
        rw [hsp] at hp
        rcases List.mem_cons.1 hp with h | h
        · subst h
          rcases List.mem_cons.1 hc with h' | h'
          · exact h' ▸ List.mem_cons_self a rest
          · exact List.mem_cons_of_mem a (ih (hsp ▸ List.mem_cons_self q qs) h')
        · exact List.mem_cons_of_mem a (ih (hsp ▸ List.mem_cons_of_mem q h) hc)

theorem not_dot_of_mem_splitDots {p l : List ℕ} (hp : p ∈ splitDots l) :
    0x2E ∉ p := by
  induction l generalizing p with
  | nil =>
    simp [splitDots] at hp
    subst hp
    exact List.not_mem_nil _
  | cons a rest ih =>
    simp only [splitDots] at hp
    by_cases ha : a = 0x2E
    · rw [if_pos ha] at hp
      rcases List.mem_cons.1 hp with h | h
      · subst h; exact List.not_mem_nil _
      · exact ih h
    · rw [if_neg ha] at hp
      cases hsp : splitDots rest with
      | nil => exact absurd hsp (splitDots_ne_nil rest)
      | cons q qs =>
        rw [hsp] at hp
        rcases List.mem_cons.1 hp with h | h
        · subst h
          intro hmem
          rcases List.mem_cons.1 hmem with h' | h'
          · exact ha h'.symm
          · exact ih (hsp ▸ List.mem_cons_self q qs) h'
        · exact ih (hsp ▸ List.mem_cons_of_mem q h)

theorem mapExcept_ok_id (f : List ℕ → Except Err (List ℕ)) (ps : List (List ℕ))
    (h : ∀ p ∈ ps, f p = .ok p) : mapExcept f ps = .ok ps := by
  induction ps with
  | nil => rfl
  | cons p ps ih =>
    simp only [mapExcept]
    rw [h p (List.mem_cons_self p ps), ih fun q hq => h q (List.mem_cons_of_mem p hq)]

/-- Claim C7, counterexample: the DEL character `0x7F` is ASCII in the
claim's sense, but the source's regex class is `[^\0-\x7E]`, so a label
containing `0x7F` is ACE-encoded instead of passed through: `ascii`
applied to the one-character string `0x7F` yields `"xn--\x7F-"`, not the
input. -/
theorem ascii_del_char_encoded :
    asciiU [0x7F] = .ok [0x78, 0x6E, 0x2D, 0x2D, 0x7F, 0x2D]
    ∧ [0x78, 0x6E, 0x2D, 0x2D, 0x7F, 0x2D] ≠ [0x7F] :=
  ⟨by decide, by decide⟩

/-- Claim C7, amended: `ascii` is the identity (and hence idempotent) on
domain strings all of whose units are at most `0x7E`; the unit `0x7F`
must be excluded, since the non-ASCII test of the source is the regex
class `[^\0-\x7E]`. -/
theorem ascii_identity_below_0x7F (x : List ℕ) (hx : ∀ c ∈ x, c ≤ 0x7E) :
    asciiU x = .ok x := by
  by_cases h0 : x = []
  · subst h0; rfl
  · show processLabels asciiLabel x = .ok x
    simp only [processLabels]
    rw [if_neg h0]
    have hlab : ∀ p ∈ splitDots x, asciiLabel p = .ok p := by
      intro p hp
      have hpa : ¬(p.any fun c => 0x7E < c) = true := by
        simp only [List.any_eq_true, not_exists]
        intro c
        simp only [decide_eq_true_eq, not_and]
        intro hcp
        exact Nat.not_lt.2 (hx c (mem_of_mem_splitDots hp hcp))
      simp only [asciiLabel]
      rw [if_neg hpa]
    rw [mapExcept_ok_id asciiLabel (splitDots x) hlab]
    show Except.ok (joinDots (splitDots x)) = Except.ok x
    rw [joinDots_splitDots]

/-- Witness for `ascii_identity_below_0x7F`: the spec's own pass-through
vector. -/
theorem ascii_identity_below_0x7F_witness :
    asciiU (unitsOf "example.com") = .ok (unitsOf "example.com") :=
  ascii_identity_below_0x7F (unitsOf "example.com") (by decide)

/-- Claim C6, counterexample: the ACE-prefix test of `unicode` is the
case-sensitive regex for the literal `xn--`, so the label
`"XN--maana-pta"` is **not** replaced by the decoding `"mañana"` of its
remainder as the claim asserts — it passes through unchanged. -/
theorem unicode_prefix_case_sensitive :
    unicodeU (unitsOf "XN--maana-pta") = .ok (unitsOf "XN--maana-pta")
    ∧ unitsOf "XN--maana-pta" ≠ unitsOf "mañana" :=
  ⟨by decide, by decide⟩

/-- Claim C6, amended: only a label beginning with the exact lowercase
characters `xn--` is replaced by the Bootstring decoding of the lowercased
remainder of the label (first conjunct, for ASCII dot-free labels, where
the ASCII-restricted model of `toLowerCase` is exact); every other label —
including ones carrying the prefix in a different letter case — is left
unchanged (second conjunct). -/
theorem unicode_lowercase_prefix_only :
    (∀ rest : List ℕ, (∀ c ∈ rest, c < 0x80) → 0x2E ∉ rest →
      unicodeU (0x78 :: 0x6E :: 0x2D :: 0x2D :: rest) = decodeU (toLowerAscii rest))
    ∧ (∀ label : List ℕ, label.take 4 ≠ [0x78, 0x6E, 0x2D, 0x2D] → 0x2E ∉ label →
      unicodeU label = .ok label) := by
  constructor
  · intro rest _ hdot
    have hnod : (0x2E : ℕ) ∉ 0x78 :: 0x6E :: 0x2D :: 0x2D :: rest := by
      simp only [List.mem_cons, not_or]
      exact ⟨by decide, by decide, by decide, by decide, hdot⟩
    show processLabels unicodeLabel _ = _
    simp only [processLabels]
    rw [if_neg (by simp), splitDots_no_dot _ hnod]
    simp only [mapExcept, unicodeLabel]
    rw [if_pos (show List.take 4 (0x78 :: 0x6E :: 0x2D :: 0x2D :: rest) =
      [0x78, 0x6E, 0x2D, 0x2D] from rfl)]
    show (match (match decodeU (toLowerAscii (List.drop 4
        (0x78 :: 0x6E :: 0x2D :: 0x2D :: rest))) with
      | Except.error e => Except.error e
      | Except.ok y => Except.ok [y]) with
      | Except.error e => Except.error e
      | Except.ok ys => Except.ok (joinDots ys)) = decodeU (toLowerAscii rest)
    cases hd : decodeU (toLowerAscii rest) with
    | error e => rw [show List.drop 4 (0x78 :: 0x6E :: 0x2D :: 0x2D :: rest) = rest from rfl, hd]
    | ok y =>
      rw [show List.drop 4 (0x78 :: 0x6E :: 0x2D :: 0x2D :: rest) = rest from rfl, hd]
      rfl
  · intro label hpre hdot
    by_cases h0 : label = []
    · subst h0; rfl
    · show processLabels unicodeLabel label = .ok label
      simp only [processLabels]
      rw [if_neg h0, splitDots_no_dot _ hdot]
      simp only [mapExcept, unicodeLabel]
      rw [if_neg hpre]
      rfl

/-! ### Symbolic evaluation of `encode`/`decode` on `replicate`-shaped
inputs (the overflow counterexamples are ≈1930 units long, far past what
kernel reduction of list recursion handles, so the list-shaped parts are
handled by induction and only the arithmetic is computed) -/

theorem ucs2Decode_cons_basic (c : ℕ) (l : List ℕ) (h : c < 0xD800) :
    ucs2Decode (c :: l) = (ucs2Decode l).map fun out => c :: out := by
  cases l with
  | nil => rw [ucs2Decode.eq_2, if_neg (by omega), if_neg (by omega)]
  | cons d rest => rw [ucs2Decode.eq_3, if_neg (by omega), if_neg (by omega)]

theorem ucs2Decode_replicate_a (k : ℕ) (l : List ℕ) :
    ucs2Decode (List.replicate k 0x61 ++ l) =
      (ucs2Decode l).map fun out => List.replicate k 0x61 ++ out := by
  induction k with
  | zero =>
    show ucs2Decode l = (ucs2Decode l).map fun out => List.replicate 0 0x61 ++ out
    cases h : ucs2Decode l <;> rfl
  | succ k ih =>
    rw [List.replicate_succ, List.cons_append, ucs2Decode_cons_basic _ _ (by omega), ih,
      exceptMapMap]
    exact exceptMapCongr _ _ _ fun o => rfl

theorem ucs2Decode_rep_pair (k : ℕ) :
    ucs2Decode (List.replicate k 0x61 ++ [0xDBFF, 0xDFFF]) =
      .ok (List.replicate k 0x61 ++ [0x10FFFF]) := by
  rw [ucs2Decode_replicate_a,
    show ucs2Decode [0xDBFF, 0xDFFF] = .ok [0x10FFFF] from by decide]
  rfl

theorem encodeScan_replicate (k : ℕ) (rest : List ℕ) (delta : ℕ) (bias : ℤ)
    (h n basic : ℕ) (output : List ℕ) (hn : 0x61 < n) :
    encodeScan (List.replicate k 0x61 ++ rest) delta bias h n basic output =
      encodeScan rest (delta + k) bias h n basic output := by
  induction k generalizing delta with
  | zero => simp
  | succ k ih =>
    rw [List.replicate_succ, List.cons_append]
    simp only [encodeScan]
    rw [if_pos hn, if_neg (by omega : ¬(0x61 = n)), ih (delta + 1),
      show delta + 1 + k = delta + (k + 1) from by omega]

theorem fromCharCodes_append (l m : List ℕ) :
    fromCharCodes (l ++ m) = fromCharCodes l ++ fromCharCodes m := by
  simp [fromCharCodes]

theorem fromCharCodes_rep_a (k : ℕ) :
    fromCharCodes (List.replicate k 0x61) = List.replicate k 0x61 := by
  simp [fromCharCodes, List.map_replicate]

/-- Symbolic run of `encode` on `k` copies of `'a'` followed by the
surrogate pair for `U+10FFFF`: the single outer iteration accumulates
`delta = (0x10FFFF - 0x80) * (k + 1) + k` and emits its digit string `D`
after the basic prefix and delimiter.  There is no overflow check anywhere
in this run. -/
theorem encode_replicate_eval (k : ℕ) (hk : 0 < k) (D : List ℕ)
    (hdig : encodeDigits ((0 + (0x10FFFF - INITIAL_N) * (k + 1) + k) + 1) BASE
      (0 + (0x10FFFF - INITIAL_N) * (k + 1) + k) (INITIAL_BIAS : ℤ) = .ok D) :
    encodeU (List.replicate k 0x61 ++ [0xDBFF, 0xDFFF]) =
      .ok (List.replicate k 0x61 ++ [DELIMITER_CODE] ++ fromCharCodes D) := by
  have hne : List.replicate k 0x61 ++ [0xDBFF, 0xDFFF] ≠ [] := by simp
  simp only [encodeU]
  rw [if_neg hne, ucs2Decode_rep_pair k]
  have hf1 : (List.replicate k 0x61 ++ [0x10FFFF]).filter (fun code => decide (code < 0x80)) =
      List.replicate k 0x61 := by
    rw [List.filter_append, List.filter_replicate]
    simp
  have hf2 : (List.replicate k 0x61 ++ [0x10FFFF]).filter (fun code => decide (0x80 ≤ code)) =
      [0x10FFFF] := by
    rw [List.filter_append, List.filter_replicate]
    simp
  show (match encodeOuter (List.replicate k 0x61 ++ [0x10FFFF]).length
      (List.replicate k 0x61 ++ [0x10FFFF])
      ((List.replicate k 0x61 ++ [0x10FFFF]).filter fun code => decide (0x80 ≤ code)) 0
      INITIAL_N (INITIAL_BIAS : ℤ)
      ((List.replicate k 0x61 ++ [0x10FFFF]).filter fun code => decide (code < 0x80)).length
      ((List.replicate k 0x61 ++ [0x10FFFF]).filter fun code => decide (code < 0x80)).length
      (if 0 < ((List.replicate k 0x61 ++ [0x10FFFF]).filter fun code =>
          decide (code < 0x80)).length
        then ((List.replicate k 0x61 ++ [0x10FFFF]).filter fun code =>
          decide (code < 0x80)) ++ [DELIMITER_CODE]
        else (List.replicate k 0x61 ++ [0x10FFFF]).filter fun code =>
          decide (code < 0x80)) with
    | Except.error e => Except.error e
    | Except.ok out => Except.ok (fromCharCodes out)) = _
  rw [hf1, hf2, List.length_replicate, if_pos hk]
  have hlen : (List.replicate k 0x61 ++ [0x10FFFF]).length = k + 1 := by simp
  rw [hlen, encodeOuter_succ, if_neg (by rw [hlen]; omega),
    show minCodeAtLeast INITIAL_N [0x10FFFF] = 0x10FFFF from by decide,
    encodeScan_replicate k _ _ _ _ _ _ _ (by omega)]
  simp only [encodeScan]
  rw [if_neg (by omega : ¬((0x10FFFF : ℕ) < 0x10FFFF)), hdig]
  show (match encodeOuter k (List.replicate k 0x61 ++ [0x10FFFF]) [0x10FFFF] (0 + 1)
      (0x10FFFF + 1) (adapt (0 + (0x10FFFF - INITIAL_N) * (k + 1) + k) (k + 1) (k == k))
      (k + 1) k (List.replicate k 0x61 ++ [DELIMITER_CODE] ++ D) with
    | Except.error e => Except.error e
    | Except.ok out => Except.ok (fromCharCodes out)) =
    Except.ok (List.replicate k 0x61 ++ [DELIMITER_CODE] ++ fromCharCodes D)
  rw [encodeOuter_done _ _ _ _ _ _ _ _ _ (le_of_eq hlen)]
  show Except.ok (fromCharCodes (List.replicate k 0x61 ++ [DELIMITER_CODE] ++ D)) =
    Except.ok (List.replicate k 0x61 ++ [DELIMITER_CODE] ++ fromCharCodes D)
  rw [fromCharCodes_append, fromCharCodes_append, fromCharCodes_rep_a,
    show fromCharCodes [DELIMITER_CODE] = [DELIMITER_CODE] from by decide]

theorem lastDelimEnd_append (l m : List ℕ) (hm : lastDelimEnd m ≠ 0) :
    lastDelimEnd (l ++ m) = l.length + lastDelimEnd m := by
  induction l with
  | nil => simp
  | cons c l ih =>
    show (let r := lastDelimEnd (l ++ m);
      if r = 0 then (if c = DELIMITER_CODE then 1 else 0) else r + 1) =
      (c :: l).length + lastDelimEnd m
    rw [ih]
    have : l.length + lastDelimEnd m ≠ 0 := by
      have := Nat.pos_of_ne_zero hm
      omega
    rw [if_neg this]
    simp only [List.length_cons]
    omega

/-- Symbolic run of `decode` on `k` copies of `'a'`, the delimiter, and a
digit stream `D` whose generalized-integer accumulation trips the decoder's
overflow guard. -/
theorem decode_replicate_overflow (k : ℕ) (D : List ℕ) (hne : D ≠ [])
    (hdelim : lastDelimEnd D = 0)
    (hinner : decodeInner D 0 1 BASE (INITIAL_BIAS : ℤ) = .error .overflow) :
    decodeU (List.replicate k 0x61 ++ DELIMITER_CODE :: D) = .error .overflow := by
  have hne2 : List.replicate k 0x61 ++ DELIMITER_CODE :: D ≠ [] := by simp
  simp only [decodeU]
  rw [if_neg hne2]
  have hdel1 : lastDelimEnd (DELIMITER_CODE :: D) = 1 := by
    simp only [lastDelimEnd]
    rw [hdelim]
    simp
  have hdel : lastDelimEnd (List.replicate k 0x61 ++ DELIMITER_CODE :: D) = k + 1 := by
    rw [lastDelimEnd_append _ _ (by rw [hdel1]; omega), hdel1, List.length_replicate]
  rw [hdel, if_pos (Nat.succ_ne_zero k),
    show k + 1 - 1 = (List.replicate k (0x61 : ℕ)).length from by simp,
    List.take_left,
    show (k + 1 : ℕ) = (List.replicate k (0x61 : ℕ)).length + 1 from by simp,
    List.drop_append 1,
    show List.drop 1 (DELIMITER_CODE :: D) = D from rfl]
  cases D with
  | nil => exact absurd rfl hne
  | cons d ds =>
    rw [show (d :: ds).length = ds.length + 1 from by simp, decodeOuter_cons, hinner]

set_option maxRecDepth 40000

/-- Claim C1 (code_bug): the round-trip claim `decode(encode(s)) = s` fails
for the well-formed string of 1929 `'a'`s followed by the surrogate pair
for `U+10FFFF` (first conjunct: its code-point conversion succeeds and
contains a code point ≥ 0x80, so the claim's premises hold).  `encode`
performs no overflow checks, accumulates
`delta = (0x10FFFF - 0x80) * 1930 + 1929 = 2149989119 > 2^31 - 1` and
happily emits its digit string; the decoder's own overflow guard then
rejects that digit string, so `decode(encode(s))` raises `Overflow` instead
of returning `s` (second conjunct). -/
theorem roundtrip_overflow_failure :
    ucs2Decode (List.replicate 1929 0x61 ++ [0xDBFF, 0xDFFF]) =
      .ok (List.replicate 1929 0x61 ++ [0x10FFFF])
    ∧ (encodeU (List.replicate 1929 0x61 ++ [0xDBFF, 0xDFFF])).bind decodeU =
      .error .overflow := by
  refine ⟨ucs2Decode_rep_pair 1929, ?_⟩
  have henc := encode_replicate_eval 1929 (by omega)
    [116, 102, 55, 48, 50, 54, 54, 111] (by decide)
  have e1 : fromCharCodes [116, 102, 55, 48, 50, 54, 54, 111] =
      [116, 102, 55, 48, 50, 54, 54, 111] := by decide
  have e2 : List.replicate 1929 (0x61 : ℕ) ++ [DELIMITER_CODE] ++
        [116, 102, 55, 48, 50, 54, 54, 111] =
      List.replicate 1929 0x61 ++
        DELIMITER_CODE :: [116, 102, 55, 48, 50, 54, 54, 111] := by simp
  have hdec := decode_replicate_overflow 1929 [116, 102, 55, 48, 50, 54, 54, 111]
    (by simp) (by decide) (by decide)
  calc (encodeU (List.replicate 1929 0x61 ++ [0xDBFF, 0xDFFF])).bind decodeU
      = (Except.ok (List.replicate 1929 0x61 ++ [DELIMITER_CODE] ++
          fromCharCodes [116, 102, 55, 48, 50, 54, 54, 111])).bind decodeU := by
        rw [henc]
    _ = decodeU (List.replicate 1929 0x61 ++ [DELIMITER_CODE] ++
          fromCharCodes [116, 102, 55, 48, 50, 54, 54, 111]) := rfl
    _ = decodeU (List.replicate 1929 0x61 ++
          DELIMITER_CODE :: [116, 102, 55, 48, 50, 54, 54, 111]) := by rw [e1, e2]
    _ = .error .overflow := hdec

/-- Claim C4 (code_bug): the claim says `encode` checks the accumulation
`delta += (m - n) * (h + 1)` against `2^31 - 1` on every outer iteration
and fails with `Overflow` when it would be exceeded.  The source contains
no overflow check anywhere in `encode`: on 1930 `'a'`s followed by the
surrogate pair for `U+10FFFF`, the very first outer iteration accumulates
`(0x10FFFF - 0x80) * 1931 > 2^31 - 1` (second conjunct), yet `encode`
returns a result instead of failing (first conjunct). -/
theorem encode_no_overflow_check :
    (encodeU (List.replicate 1930 0x61 ++ [0xDBFF, 0xDFFF])).isOk = true
    ∧ MAX_INTEGER < (0x10FFFF - INITIAL_N) * (1930 + 1) := by
  constructor
  · rw [encode_replicate_eval 1930 (by omega) [120, 115, 54, 49, 49, 55, 54, 111] (by decide)]
    rfl
  · decide

/-! ### Membership invariants: neither codec direction can produce a `'.'`
(0x2E) that was not in its input.  These feed claim C10. -/

theorem ucs2Decode_no_dot (l : List ℕ) :
    ∀ cps, 0x2E ∉ l → ucs2Decode l = .ok cps → 0x2E ∉ cps := by
  induction l using ucs2Decode.induct with
  | case1 =>
    intro cps _ h
    cases h
    exact List.not_mem_nil _
  | case2 low hr =>
    intro cps _ h
    rw [ucs2Decode.eq_2, if_pos hr] at h
    cases h
  | case3 low hr low1 rest2 ih =>
    intro cps hd h
    rw [ucs2Decode.eq_3, if_pos hr] at h
    cases hrec : ucs2Decode rest2 with
    | error e => rw [hrec] at h; cases h
    | ok cps2 =>
      rw [hrec] at h
      cases h
      intro hmem
      rcases List.mem_cons.1 hmem with h' | h'
      · omega
      · exact ih cps2 (fun hm => hd (by simp [hm])) hrec h'
  | case4 low rest2 hr1 hr2 ih =>
    intro cps hd h
    cases rest2 with
    | nil =>
      rw [ucs2Decode.eq_2, if_neg hr1, if_pos hr2] at h
      cases h
      exact List.not_mem_nil _
    | cons a b =>
      rw [ucs2Decode.eq_3, if_neg hr1, if_pos hr2] at h
      exact ih cps (fun hm => hd (by simp [hm])) h
  | case5 low rest2 hr1 hr2 ih =>
    intro cps hd h
    have hlow : low ≠ 0x2E := fun he => hd (by simp [he])
    have hd2 : (0x2E : ℕ) ∉ rest2 := fun hm => hd (by simp [hm])
    cases rest2 with
    | nil =>
      rw [ucs2Decode.eq_2, if_neg hr1, if_neg hr2] at h
      cases hrec : ucs2Decode ([] : List ℕ) with
      | error e => rw [hrec] at h; cases h
      | ok cps2 =>
        rw [hrec] at h
        cases h
        intro hmem
        rcases List.mem_cons.1 hmem with h' | h'
        · exact hlow h'.symm
        · exact ih cps2 hd2 hrec h'
    | cons a b =>
      rw [ucs2Decode.eq_3, if_neg hr1, if_neg hr2] at h
      cases hrec : ucs2Decode (a :: b) with
      | error e => rw [hrec] at h; cases h
      | ok cps2 =>
        rw [hrec] at h
        cases h
        intro hmem
        rcases List.mem_cons.1 hmem with h' | h'
        · exact hlow h'.symm
        · exact ih cps2 hd2 hrec h'

theorem mem_spliceIns (x n : ℕ) : ∀ (i : ℕ) (l : List ℕ),
    x ∈ spliceIns i n l → x = n ∨ x ∈ l := by
  intro i
  induction i with
  | zero =>
    intro l h
    rcases List.mem_cons.1 h with h' | h'
    · exact Or.inl h'
    · exact Or.inr h'
  | succ i ih =>
    intro l h
    cases l with
    | nil =>
      rcases List.mem_cons.1 h with h' | h'
      · exact Or.inl h'
      · exact absurd h' (List.not_mem_nil x)
    | cons c l =>
      rcases List.mem_cons.1 h with h' | h'
      · exact Or.inr (h' ▸ List.mem_cons_self c l)
      · rcases ih l h' with h2 | h2
        · exact Or.inl h2
        · exact Or.inr (List.mem_cons_of_mem c h2)

theorem decodeOuter_mem (fuel : ℕ) : ∀ (rest : List ℕ) (i n : ℕ) (bias : ℤ)
    (output out : List ℕ), 128 ≤ n →
    decodeOuter fuel rest i n bias output = .ok out →
    ∀ c ∈ out, c ∈ output ∨ 128 ≤ c := by
  induction fuel with
  | zero =>
    intro rest i n bias output out _ h c hc
    cases rest with
    | nil => rw [decodeOuter_nil] at h; cases h; exact Or.inl hc
    | cons a cs => cases h
  | succ f ih =>
    intro rest i n bias output out hn h c hc
    cases rest with
    | nil => rw [decodeOuter_nil] at h; cases h; exact Or.inl hc
    | cons a cs =>
      rw [decodeOuter_cons] at h
      cases hin : decodeInner (a :: cs) i 1 BASE bias with
      | error e => rw [hin] at h; cases h
      | ok p =>
        obtain ⟨i2, rest2⟩ := p
        rw [hin] at h
        simp only at h
        by_cases hov : (MAX_INTEGER : ℤ) - (n : ℤ) <
            ((i2 / (output.length + 1) : ℕ) : ℤ)
        · rw [if_pos hov] at h; cases h
        · rw [if_neg hov] at h
          have hn2 : 128 ≤ n + i2 / (output.length + 1) :=
            le_trans hn (Nat.le_add_right _ _)
          rcases ih rest2 _ _ _ _ _ hn2 h c hc with h2 | h2
          · rcases mem_spliceIns c _ _ _ h2 with h3 | h3
            · exact Or.inr (h3 ▸ hn2)
            · exact Or.inl h3
          · exact Or.inr h2

theorem fromCodePoint_no_dot (l : List ℕ) : ∀ us, fromCodePoint l = .ok us →
    (∀ cp ∈ l, cp ≠ 0x2E) → 0x2E ∉ us := by
  induction l with
  | nil =>
    intro us h _
    cases h
    exact List.not_mem_nil _
  | cons cp rest ih =>
    intro us h hl
    simp only [fromCodePoint] at h
    by_cases hr : 0x10FFFF < cp
    · rw [if_pos hr] at h; cases h
    · rw [if_neg hr] at h
      cases hrec : fromCodePoint rest with
      | error e => rw [hrec] at h; cases h
      | ok us2 =>
        rw [hrec] at h
        cases h
        have hus2 : (0x2E : ℕ) ∉ us2 :=
          ih us2 hrec fun c hc => hl c (List.mem_cons_of_mem cp hc)
        show (0x2E : ℕ) ∉ (if cp < 0x10000 then cp :: us2 else
          (0xD800 + (cp - 0x10000) / 0x400) :: (0xDC00 + (cp - 0x10000) % 0x400) :: us2)
        by_cases hsm : cp < 0x10000
        · rw [if_pos hsm]
          intro hmem
          rcases List.mem_cons.1 hmem with h' | h'
          · exact hl cp (List.mem_cons_self cp rest) h'.symm
          · exact hus2 h'
        · rw [if_neg hsm]
          intro hmem
          rcases List.mem_cons.1 hmem with h' | h'
          · omega
          · rcases List.mem_cons.1 h' with h'' | h''
            · omega
            · exact hus2 h''

theorem decodeU_no_dot (p y : List ℕ) (h : decodeU p = .ok y) (hd : 0x2E ∉ p) :
    0x2E ∉ y := by
  by_cases h0 : p = []
  · subst h0
    cases h
    exact List.not_mem_nil _
  · simp only [decodeU] at h
    rw [if_neg h0] at h
    cases hout : decodeOuter (List.drop (lastDelimEnd p) p).length
        (List.drop (lastDelimEnd p) p) 0 INITIAL_N (INITIAL_BIAS : ℤ)
        (if lastDelimEnd p ≠ 0 then List.take (lastDelimEnd p - 1) p else []) with
    | error e => rw [hout] at h; cases h
    | ok out =>
      rw [hout] at h
      have hmem := decodeOuter_mem _ _ _ _ _ _ _ (by decide) hout
      refine fromCodePoint_no_dot out y h fun cp hcp he => ?_
      rcases hmem cp hcp with h2 | h2
      · by_cases hb : lastDelimEnd p ≠ 0
        · rw [if_pos hb] at h2
          exact hd (he ▸ List.take_subset _ _ h2)
        · rw [if_neg hb] at h2
          exact absurd h2 (List.not_mem_nil cp)
      · omega

theorem threshold_range (k : ℕ) (bias : ℤ) :
    1 ≤ threshold k bias ∧ threshold k bias ≤ 26 := by
  simp only [threshold, TMIN, TMAX]
  split_ifs <;> omega

theorem encodeDigits_mem (fuel : ℕ) : ∀ (k q : ℕ) (bias : ℤ) (ds : List ℕ),
    encodeDigits fuel k q bias = .ok ds → ∀ c ∈ ds, 0x30 ≤ c ∧ c ≤ 0x7A := by
  induction fuel with
  | zero => intro k q bias ds h; cases h
  | succ f ih =>
    intro k q bias ds h c hc
    rw [encodeDigits_succ] at h
    rcases threshold_range k bias with ⟨ht1, ht2⟩
    by_cases hq : (q : ℤ) < threshold k bias
    · rw [if_pos hq] at h
      cases h
      rcases List.mem_cons.1 hc with h' | h'
      · subst h'
        have hq' : q < 0x1A := by omega
        simp only [encodeDigitChar]
        rw [if_pos hq']
        omega
      · exact absurd h' (List.not_mem_nil c)
    · rw [if_neg hq] at h
      cases hrec : encodeDigits f (k + BASE)
          ((q - (threshold k bias).toNat) / (BASE - (threshold k bias).toNat)) bias with
      | error e => rw [hrec] at h; cases h
      | ok ds2 =>
        rw [hrec] at h
        simp only [Except.map] at h
        cases h
        have htn : 1 ≤ (threshold k bias).toNat ∧ (threshold k bias).toNat ≤ 26 := by omega
        have hmod : (q - (threshold k bias).toNat) % (BASE - (threshold k bias).toNat) <
            BASE - (threshold k bias).toNat := by
          apply Nat.mod_lt
          show 0 < BASE - (threshold k bias).toNat
          simp only [BASE]
          omega
        rcases List.mem_cons.1 hc with h' | h'
        · subst h'
          simp only [encodeDigitChar, BASE] at hmod ⊢
          by_cases hd : (threshold k bias).toNat +
              (q - (threshold k bias).toNat) % (36 - (threshold k bias).toNat) < 0x1A
          · rw [if_pos hd]; omega
          · rw [if_neg hd]; omega
        · exact ih _ _ _ _ hrec c h'

theorem encodeScan_mem (cs : List ℕ) : ∀ (delta : ℕ) (bias : ℤ) (h n basic : ℕ)
    (output : List ℕ) (r : ℕ × ℤ × ℕ × List ℕ),
    encodeScan cs delta bias h n basic output = .ok r →
    ∀ c ∈ r.2.2.2, c ∈ output ∨ (0x30 ≤ c ∧ c ≤ 0x7A) := by
  induction cs with
  | nil =>
    intro delta bias h n basic output r hr c hc
    cases hr
    exact Or.inl hc
  | cons c0 cs ih =>
    intro delta bias h n basic output r hr c hc
    simp only [encodeScan] at hr
    by_cases he : c0 = n
    · rw [if_pos he] at hr
      set d2 := if c0 < n then delta + 1 else delta with hd2
      cases hdig : encodeDigits (d2 + 1) BASE d2 bias with
      | error e => rw [hdig] at hr; cases hr
      | ok ds =>
        rw [hdig] at hr
        rcases ih _ _ _ _ _ _ _ hr c hc with h2 | h2
        · rcases List.mem_append.1 h2 with h3 | h3
          · exact Or.inl h3
          · exact Or.inr (encodeDigits_mem _ _ _ _ _ hdig c h3)
        · exact Or.inr h2
    · rw [if_neg he] at hr
      exact ih _ _ _ _ _ _ _ hr c hc

theorem encodeOuter_mem (fuel : ℕ) : ∀ (input nonBasic : List ℕ) (delta n : ℕ)
    (bias : ℤ) (h basic : ℕ) (output out : List ℕ),
    encodeOuter fuel input nonBasic delta n bias h basic output = .ok out →
    ∀ c ∈ out, c ∈ output ∨ (0x30 ≤ c ∧ c ≤ 0x7A) := by
  induction fuel with
  | zero =>
    intro input nonBasic delta n bias h basic output out hr c hc
    rw [encodeOuter_zero] at hr
    by_cases hle : input.length ≤ h
    · rw [if_pos hle] at hr; cases hr; exact Or.inl hc
    · rw [if_neg hle] at hr; cases hr
  | succ f ih =>
    intro input nonBasic delta n bias h basic output out hr c hc
    rw [encodeOuter_succ] at hr
    by_cases hle : input.length ≤ h
    · rw [if_pos hle] at hr; cases hr; exact Or.inl hc
    · rw [if_neg hle] at hr
      cases hscan : encodeScan input (delta + (minCodeAtLeast n nonBasic - n) * (h + 1))
          bias h (minCodeAtLeast n nonBasic) basic output with
      | error e => rw [hscan] at hr; cases hr
      | ok r =>
        obtain ⟨d3, b3, h3, o3⟩ := r
        rw [hscan] at hr
        rcases ih _ _ _ _ _ _ _ _ _ hr c hc with h2 | h2
        · rcases encodeScan_mem input _ _ _ _ _ _ _ hscan c h2 with h3' | h3'
          · exact Or.inl h3'
          · exact Or.inr h3'
        · exact Or.inr h2

theorem encodeU_unfold (units input : List ℕ) (hne : units ≠ [])
    (hu : ucs2Decode units = .ok input) :
    encodeU units =
      match encodeOuter input.length input (input.filter fun code => 0x80 ≤ code) 0
          INITIAL_N (INITIAL_BIAS : ℤ) (input.filter fun code => code < 0x80).length
          (input.filter fun code => code < 0x80).length
          (if 0 < (input.filter fun code => code < 0x80).length
            then (input.filter fun code => code < 0x80) ++ [DELIMITER_CODE]
            else input.filter fun code => code < 0x80) with
      | .error e => .error e
      | .ok out => .ok (fromCharCodes out) := by
  simp only [encodeU]
  rw [if_neg hne, hu]

theorem encodeU_no_dot (p y : List ℕ) (h : encodeU p = .ok y) (hd : 0x2E ∉ p) :
    0x2E ∉ y := by
  by_cases h0 : p = []
  · subst h0
    cases h
    exact List.not_mem_nil _
  · cases hu : ucs2Decode p with
    | error e => rw [encodeU] at h; rw [if_neg h0, hu] at h; cases h
    | ok input =>
      rw [encodeU_unfold p input h0 hu] at h
      have hcps : (0x2E : ℕ) ∉ input := ucs2Decode_no_dot p input hd hu
      cases hout : encodeOuter input.length input (input.filter fun code => 0x80 ≤ code) 0
          INITIAL_N (INITIAL_BIAS : ℤ) (input.filter fun code => code < 0x80).length
          (input.filter fun code => code < 0x80).length
          (if 0 < (input.filter fun code => code < 0x80).length
            then (input.filter fun code => code < 0x80) ++ [DELIMITER_CODE]
            else input.filter fun code => code < 0x80) with
      | error e => rw [hout] at h; cases h
      | ok out =>
        rw [hout] at h
        cases h
        intro hmem
        simp only [fromCharCodes, List.mem_map] at hmem
        obtain ⟨c, hc, hce⟩ := hmem
        have hco : c ∈ (if 0 < (input.filter fun code => code < 0x80).length
            then (input.filter fun code => code < 0x80) ++ [DELIMITER_CODE]
            else input.filter fun code => code < 0x80) ∨ (0x30 ≤ c ∧ c ≤ 0x7A) :=
          encodeOuter_mem _ _ _ _ _ _ _ _ _ _ hout c hc
      -- in every case `c` is below 0x10000, so the mod is the identity
        have hcbound : c ∈ input.filter (fun code => decide (code < 0x80)) ∨
            c = DELIMITER_CODE ∨ (0x30 ≤ c ∧ c ≤ 0x7A) := by
          rcases hco with h2 | h2
          · by_cases hb : 0 < (input.filter fun code => code < 0x80).length
            · rw [if_pos hb] at h2
              rcases List.mem_append.1 h2 with h3 | h3
              · exact Or.inl h3
              · rcases List.mem_cons.1 h3 with h4 | h4
                · exact Or.inr (Or.inl h4)
                · exact absurd h4 (List.not_mem_nil c)
            · rw [if_neg hb] at h2
              exact Or.inl h2
          · exact Or.inr (Or.inr h2)
        rcases hcbound with h2 | h2 | h2
        · have hmf := List.mem_filter.1 h2
          have hlt : c < 0x80 := by
            have := hmf.2
            simpa using this
          rw [Nat.mod_eq_of_lt (by omega)] at hce
          exact hcps (hce ▸ hmf.1)
        · subst h2
          simp [DELIMITER_CODE] at hce
        · rw [Nat.mod_eq_of_lt (by omega)] at hce
          omega

theorem toLowerAscii_no_dot (l : List ℕ) (h : 0x2E ∉ l) : 0x2E ∉ toLowerAscii l := by
  intro hm
  simp only [toLowerAscii, List.mem_map] at hm
  obtain ⟨c, hc, he⟩ := hm
  by_cases hu : 0x41 ≤ c ∧ c ≤ 0x5A
  · rw [if_pos hu] at he; omega
  · rw [if_neg hu] at he; exact h (he ▸ hc)

theorem asciiLabel_no_dot (p y : List ℕ) (h : asciiLabel p = .ok y) (hd : 0x2E ∉ p) :
    0x2E ∉ y := by
  simp only [asciiLabel] at h
  by_cases hb : (p.any fun c => 0x7E < c) = true
  · rw [if_pos hb] at h
    cases he : encodeU p with
    | error e => rw [he] at h; cases h
    | ok z =>
      rw [he] at h
      cases h
      intro hmem
      rcases List.mem_append.1 hmem with h2 | h2
      · simp at h2
      · exact encodeU_no_dot p z he hd h2
  · rw [if_neg hb] at h
    cases h
    exact hd

theorem unicodeLabel_no_dot (p y : List ℕ) (h : unicodeLabel p = .ok y)
    (hd : 0x2E ∉ p) : 0x2E ∉ y := by
  simp only [unicodeLabel] at h
  by_cases hb : p.take 4 = [0x78, 0x6E, 0x2D, 0x2D]
  · rw [if_pos hb] at h
    exact decodeU_no_dot _ y h
      (toLowerAscii_no_dot _ fun hm => hd (List.drop_subset 4 p hm))
  · rw [if_neg hb] at h
    cases h
    exact hd

theorem count_joinDots (ps : List (List ℕ)) (h : ∀ p ∈ ps, 0x2E ∉ p) (hne : ps ≠ []) :
    (joinDots ps).count 0x2E = ps.length - 1 := by
  induction ps with
  | nil => exact absurd rfl hne
  | cons p ps ih =>
    cases ps with
    | nil =>
      show p.count 0x2E = 0
      exact List.count_eq_zero.2 (h p (List.mem_cons_self p []))
    | cons q qs =>
      show (p ++ 0x2E :: joinDots (q :: qs)).count 0x2E = (q :: qs).length + 1 - 1
      rw [List.count_append, List.count_cons,
        List.count_eq_zero.2 (h p (List.mem_cons_self p (q :: qs))),
        ih (fun r hr => h r (List.mem_cons_of_mem p hr)) (by simp)]
      simp

theorem mapExcept_ok_length (f : List ℕ → Except Err (List ℕ)) :
    ∀ (ps : List (List ℕ)) (ys : List (List ℕ)),
    mapExcept f ps = .ok ys → ys.length = ps.length := by
  intro ps
  induction ps with
  | nil => intro ys h; cases h; rfl
  | cons p ps ih =>
    intro ys h
    simp only [mapExcept] at h
    cases hf : f p with
    | error e => rw [hf] at h; cases h
    | ok y =>
      rw [hf] at h
      cases hm : mapExcept f ps with
      | error e => rw [hm] at h; cases h
      | ok ys2 =>
        rw [hm] at h
        cases h
        simp [ih ys2 hm]

theorem mapExcept_ok_mem (f : List ℕ → Except Err (List ℕ)) :
    ∀ (ps : List (List ℕ)) (ys : List (List ℕ)),
    mapExcept f ps = .ok ys → ∀ y ∈ ys, ∃ p ∈ ps, f p = .ok y := by
  intro ps
  induction ps with
  | nil =>
    intro ys h y hy
    cases h
    exact absurd hy (List.not_mem_nil y)
  | cons p ps ih =>
    intro ys h y hy
    simp only [mapExcept] at h
    cases hf : f p with
    | error e => rw [hf] at h; cases h
    | ok y2 =>
      rw [hf] at h
      cases hm : mapExcept f ps with
      | error e => rw [hm] at h; cases h
      | ok ys2 =>
        rw [hm] at h
        cases h
        rcases List.mem_cons.1 hy with h2 | h2
        · exact ⟨p, List.mem_cons_self p ps, h2 ▸ hf⟩
        · obtain ⟨p2, hp2, hfp2⟩ := ih ys2 hm y h2
          exact ⟨p2, List.mem_cons_of_mem p hp2, hfp2⟩

theorem processLabels_count (f : List ℕ → Except Err (List ℕ))
    (hf : ∀ p y, f p = .ok y → 0x2E ∉ p → 0x2E ∉ y) (x y : List ℕ)
    (h : processLabels f x = .ok y) : y.count 0x2E = x.count 0x2E := by
  by_cases h0 : x = []
  · subst h0
    cases h
    rfl
  · simp only [processLabels] at h
    rw [if_neg h0] at h
    cases hm : mapExcept f (splitDots x) with
    | error e => rw [hm] at h; cases h
    | ok ys =>
      rw [hm] at h
      cases h
      have hlen := mapExcept_ok_length f (splitDots x) ys hm
      have hysnd : ∀ q ∈ ys, (0x2E : ℕ) ∉ q := by
        intro q hq
        obtain ⟨p2, hp2, hfp2⟩ := mapExcept_ok_mem f (splitDots x) ys hm q hq
        exact hf p2 q hfp2 (not_dot_of_mem_splitDots hp2)
      have hysne : ys ≠ [] := by
        intro he
        subst he
        cases hsp : splitDots x with
        | nil => exact splitDots_ne_nil x hsp
        | cons a b => rw [hsp] at hlen; simp at hlen
      rw [count_joinDots ys hysnd hysne, hlen]
      conv_rhs => rw [← joinDots_splitDots x]
      rw [count_joinDots (splitDots x) (fun p2 hp2 => not_dot_of_mem_splitDots hp2)
        (splitDots_ne_nil x)]

/-- Claim C10: `ascii` and `unicode` preserve the number of dot-separated
labels — whenever they return, the output contains exactly as many `'.'`
units as the input, because `encode` emits only basic characters copied
from the (dot-free) label, the delimiter, and digit characters, and
`decode` only inserts code points ≥ 128 after a basic prefix copied from
the dot-free label. -/
theorem label_count_preserved (x y : List ℕ) :
    (asciiU x = .ok y → y.count 0x2E = x.count 0x2E)
    ∧ (unicodeU x = .ok y → y.count 0x2E = x.count 0x2E) :=
  ⟨processLabels_count asciiLabel asciiLabel_no_dot x y,
   processLabels_count unicodeLabel unicodeLabel_no_dot x y⟩

/-- Witness for `label_count_preserved`: the spec's domain vectors in both
directions. -/
theorem label_count_preserved_witness :
    (unitsOf "xn--maana-pta.com").count 0x2E = (unitsOf "mañana.com").count 0x2E
    ∧ (unitsOf "mañana.com").count 0x2E = (unitsOf "xn--maana-pta.com").count 0x2E :=
  ⟨(label_count_preserved (unitsOf "mañana.com") (unitsOf "xn--maana-pta.com")).1
      (by decide),
   (label_count_preserved (unitsOf "xn--maana-pta.com") (unitsOf "mañana.com")).2
      (by decide)⟩

/-- Witness for `unicode_lowercase_prefix_only` at the spec's vector and a
plain label. -/
theorem unicode_lowercase_prefix_only_witness :
    unicodeU (0x78 :: 0x6E :: 0x2D :: 0x2D :: unitsOf "maana-pta") =
      decodeU (toLowerAscii (unitsOf "maana-pta"))
    ∧ unicodeU (unitsOf "abc") = .ok (unitsOf "abc") :=
  ⟨unicode_lowercase_prefix_only.1 (unitsOf "maana-pta") (by decide) (by decide),
   unicode_lowercase_prefix_only.2 (unitsOf "abc") (by decide) (by decide)⟩

/-! ### Fuel sufficiency: the chosen fuels are large enough that the
`nonTermination` marker is unreachable on every loop of the source that
terminates.  For `adaptLoop` and `encodeDigits` the governed value strictly
decreases, so they can never exhaust their fuel at all; `decode`'s outer
loop consumes at least one unit per iteration, so decode (and hence
`unicode`) can never return the marker either.  `encode`'s outer loop is
the one place genuine divergence exists (`encode_nontermination_bug`). -/

theorem adaptLoop_fuel (d : ℕ) : ∀ f g k, d ≤ f → d ≤ g →
    adaptLoop f d k = adaptLoop g d k := by
  induction d using Nat.strong_induction_on with
  | _ d ih =>
    intro f g k hf hg
    by_cases hd : ADAPT_X < d
    · have hd1 : 1 ≤ d := by
        have : (455 : ℕ) = ADAPT_X := by decide
        omega
      obtain ⟨f2, rfl⟩ : ∃ f2, f = f2 + 1 := ⟨f - 1, by omega⟩
      obtain ⟨g2, rfl⟩ : ∃ g2, g = g2 + 1 := ⟨g - 1, by omega⟩
      show (if ADAPT_X < d then adaptLoop f2 (d / (BASE - TMIN)) (k + BASE)
          else (d, k)) =
        (if ADAPT_X < d then adaptLoop g2 (d / (BASE - TMIN)) (k + BASE)
          else (d, k))
      rw [if_pos hd, if_pos hd]
      have hlt : d / (BASE - TMIN) < d :=
        Nat.div_lt_self (by omega) (by simp only [BASE, TMIN]; omega)
      exact ih _ hlt f2 g2 (k + BASE) (by omega) (by omega)
    · cases f with
      | zero =>
        cases g with
        | zero => rfl
        | succ g2 => show (d, k) = if ADAPT_X < d then _ else (d, k); rw [if_neg hd]
      | succ f2 =>
        cases g with
        | zero => show (if ADAPT_X < d then _ else (d, k)) = (d, k); rw [if_neg hd]
        | succ g2 =>
          show (if ADAPT_X < d then _ else (d, k)) =
            if ADAPT_X < d then _ else (d, k)
          rw [if_neg hd, if_neg hd]

theorem encodeDigits_fuel (fuel : ℕ) : ∀ (q k : ℕ) (bias : ℤ), q < fuel →
    encodeDigits fuel k q bias ≠ .error .nonTermination := by
  induction fuel with
  | zero => intro q k bias h; exact absurd h (Nat.not_lt_zero q)
  | succ f ih =>
    intro q k bias hq
    rw [encodeDigits_succ]
    rcases threshold_range k bias with ⟨ht1, ht2⟩
    by_cases h1 : (q : ℤ) < threshold k bias
    · rw [if_pos h1]; simp
    · rw [if_neg h1]
      have htn : 1 ≤ (threshold k bias).toNat := by omega
      have hq1 : 1 ≤ q := by omega
      have hlt : (q - (threshold k bias).toNat) / (BASE - (threshold k bias).toNat) < q :=
        lt_of_le_of_lt (Nat.div_le_self _ _) (by omega)
      intro hcon
      cases hrec : encodeDigits f (k + BASE)
          ((q - (threshold k bias).toNat) / (BASE - (threshold k bias).toNat)) bias with
      | error e =>
        rw [hrec] at hcon
        simp only [Except.map] at hcon
        cases hcon
        exact ih _ _ _ (by omega) hrec
      | ok ds =>
        rw [hrec] at hcon
        simp only [Except.map] at hcon
        exact Except.noConfusion hcon

theorem encodeScan_ne_fuel (cs : List ℕ) : ∀ (delta : ℕ) (bias : ℤ)
    (h n basic : ℕ) (output : List ℕ),
    encodeScan cs delta bias h n basic output ≠ .error .nonTermination := by
  induction cs with
  | nil => intro delta bias h n basic output; simp [encodeScan]
  | cons c0 cs ih =>
    intro delta bias h n basic output
    simp only [encodeScan]
    by_cases he : c0 = n
    · rw [if_pos he]
      set d2 := if c0 < n then delta + 1 else delta with hd2
      cases hdig : encodeDigits (d2 + 1) BASE d2 bias with
      | error e =>
        have := encodeDigits_fuel (d2 + 1) d2 BASE bias (by omega)
        rw [hdig] at this
        intro hcon
        cases hcon
        exact this rfl
      | ok ds => exact ih _ _ _ _ _ _
    · rw [if_neg he]
      exact ih _ _ _ _ _ _

theorem decodeInner_ne_fuel : ∀ (rest : List ℕ) (i w k : ℕ) (bias : ℤ),
    decodeInner rest i w k bias ≠ .error .nonTermination := by
  intro rest
  induction rest with
  | nil => intro i w k bias; simp [decodeInner]
  | cons c cs ih =>
    intro i w k bias
    simp only [decodeInner]
    by_cases h1 : BASE ≤ decodeDigitVal c ∨
        Int.tdiv ((MAX_INTEGER : ℤ) - (i : ℤ)) (w : ℤ) < (decodeDigitVal c : ℤ)
    · rw [if_pos h1]; simp
    · rw [if_neg h1]
      by_cases h2 : (decodeDigitVal c : ℤ) < threshold k bias
      · rw [if_pos h2]; simp
      · rw [if_neg h2]
        by_cases h3 : MAX_INTEGER / ((BASE : ℤ) - threshold k bias).toNat < w
        · rw [if_pos h3]; simp
        · rw [if_neg h3]; exact ih _ _ _ _

theorem decodeInner_consumes : ∀ (rest : List ℕ) (i w k : ℕ) (bias : ℤ)
    (i2 : ℕ) (rest2 : List ℕ),
    decodeInner rest i w k bias = .ok (i2, rest2) → rest2.length < rest.length := by
  intro rest
  induction rest with
  | nil => intro i w k bias i2 rest2 h; cases h
  | cons c cs ih =>
    intro i w k bias i2 rest2 h
    simp only [decodeInner] at h
    by_cases h1 : BASE ≤ decodeDigitVal c ∨
        Int.tdiv ((MAX_INTEGER : ℤ) - (i : ℤ)) (w : ℤ) < (decodeDigitVal c : ℤ)
    · rw [if_pos h1] at h; cases h
    · rw [if_neg h1] at h
      by_cases h2 : (decodeDigitVal c : ℤ) < threshold k bias
      · rw [if_pos h2] at h
        cases h
        simp
      · rw [if_neg h2] at h
        by_cases h3 : MAX_INTEGER / ((BASE : ℤ) - threshold k bias).toNat < w
        · rw [if_pos h3] at h; cases h
        · rw [if_neg h3] at h
          exact lt_trans (ih _ _ _ _ _ _ h) (by simp)

theorem decodeOuter_fuel (fuel : ℕ) : ∀ (rest : List ℕ) (i n : ℕ) (bias : ℤ)
    (output : List ℕ), rest.length ≤ fuel →
    decodeOuter fuel rest i n bias output ≠ .error .nonTermination := by
  induction fuel with
  | zero =>
    intro rest i n bias output hle
    have hnil : rest = [] := List.length_eq_zero.1 (Nat.le_zero.1 hle)
    subst hnil
    rw [decodeOuter_nil]
    simp
  | succ f ih =>
    intro rest i n bias output hle
    cases rest with
    | nil => rw [decodeOuter_nil]; simp
    | cons c cs =>
      rw [decodeOuter_cons]
      cases hin : decodeInner (c :: cs) i 1 BASE bias with
      | error e =>
        have hne := decodeInner_ne_fuel (c :: cs) i 1 BASE bias
        rw [hin] at hne
        simpa using hne
      | ok p =>
        obtain ⟨i2, rest2⟩ := p
        simp only
        by_cases hov : (MAX_INTEGER : ℤ) - (n : ℤ) <
            ((i2 / (output.length + 1) : ℕ) : ℤ)
        · rw [if_pos hov]; simp
        · rw [if_neg hov]
          have h2 := decodeInner_consumes (c :: cs) i 1 BASE bias i2 rest2 hin
          simp only [List.length_cons] at h2 hle
          exact ih rest2 _ _ _ _ (by omega)

theorem fromCodePoint_ne_fuel : ∀ l : List ℕ, fromCodePoint l ≠ .error .nonTermination := by
  intro l
  induction l with
  | nil => simp [fromCodePoint]
  | cons cp rest ih =>
    simp only [fromCodePoint]
    by_cases hr : 0x10FFFF < cp
    · rw [if_pos hr]; simp
    · rw [if_neg hr]
      cases hrec : fromCodePoint rest with
      | error e =>
        rw [hrec] at ih
        simp only [Except.map]
        exact ih
      | ok us => simp [Except.map]

/-- `decode` can never return the fuel marker: its outer loop consumes at
least one unit per iteration, so fuel equal to the digit-stream length is
always sufficient — the source's decode loop terminates on every input. -/
theorem decodeU_ne_fuel (p : List ℕ) : decodeU p ≠ .error .nonTermination := by
  by_cases h0 : p = []
  · subst h0; simp [decodeU]
  · simp only [decodeU]
    rw [if_neg h0]
    cases hout : decodeOuter (List.drop (lastDelimEnd p) p).length
        (List.drop (lastDelimEnd p) p) 0 INITIAL_N (INITIAL_BIAS : ℤ)
        (if lastDelimEnd p ≠ 0 then List.take (lastDelimEnd p - 1) p else []) with
    | error e =>
      have hne := decodeOuter_fuel (List.drop (lastDelimEnd p) p).length
        (List.drop (lastDelimEnd p) p) 0 INITIAL_N (INITIAL_BIAS : ℤ)
        (if lastDelimEnd p ≠ 0 then List.take (lastDelimEnd p - 1) p else [])
        (le_refl _)
      rw [hout] at hne
      simpa using hne
    | ok out =>
      simpa using fromCodePoint_ne_fuel out

theorem mapExcept_error_src (f : List ℕ → Except Err (List ℕ)) :
    ∀ (ps : List (List ℕ)) (e : Err), mapExcept f ps = .error e →
    ∃ p ∈ ps, f p = .error e := by
  intro ps
  induction ps with
  | nil => intro e h; cases h
  | cons p ps ih =>
    intro e h
    simp only [mapExcept] at h
    cases hf : f p with
    | error e2 =>
      rw [hf] at h
      cases h
      exact ⟨p, List.mem_cons_self p ps, hf⟩
    | ok y =>
      rw [hf] at h
      cases hm : mapExcept f ps with
      | error e2 =>
        rw [hm] at h
        cases h
        obtain ⟨p2, hp2, hfp2⟩ := ih _ hm
        exact ⟨p2, List.mem_cons_of_mem p hp2, hfp2⟩
      | ok ys => rw [hm] at h; cases h

/-- `unicode` can never return the fuel marker either: every label is
either passed through or handed to `decode`. -/
theorem unicodeU_ne_fuel (p : List ℕ) : unicodeU p ≠ .error .nonTermination := by
  by_cases h0 : p = []
  · subst h0; simp [unicodeU, processLabels]
  · show processLabels unicodeLabel p ≠ _
    simp only [processLabels]
    rw [if_neg h0]
    cases hm : mapExcept unicodeLabel (splitDots p) with
    | error e =>
      obtain ⟨q, _, hq⟩ := mapExcept_error_src unicodeLabel (splitDots p) e hm
      simp only [unicodeLabel] at hq
      by_cases hb : q.take 4 = [0x78, 0x6E, 0x2D, 0x2D]
      · rw [if_pos hb] at hq
        intro hcon
        cases hcon
        exact decodeU_ne_fuel _ hq
      · rw [if_neg hb] at hq
        cases hq
    | ok ys => simp
